import Mathlib

/-!
# Verification of the goscache memory backend

A shallow embedding of the memory-backend cache (`MemoryCache` in the Go
source): the type-tagging field codec used by `SetHash`/`GetHash`, the
primary key-value store (backed by go-cache) with its key-expiration index,
the hash-table store with its hash-expiration index, and the background
reaper sweep.  Times and durations are modelled as `Int` (Go `time.Time` /
`time.Duration` nanosecond values); `time.Now().After(t)` is strict `>`.
Go maps are modelled as functions `String → Option α` (the outer indexes)
or as association lists with unique keys (the inner field maps, whose
emptiness and iteration order matter).
-/

namespace Goscache

/-- Go values as they enter the cache API (`interface{}`).
`vInt` carries the numeric value of any of Go's `int, int32, int64, uint,
uint32, uint64`; `vBytes` a `[]byte` (entries `< 256`); `vOther` a
structured value, carrying `some s` when `json.Marshal` succeeds with
output `s` and `none` when it fails.  `vFloat` carries a member of the
float family (`float32/float64`) through its `fmt %v` rendering: the
shortest decimal string that `strconv` parses back to the value.  By
strconv's documented round-trip guarantee that string determines the
float64 `strconv.ParseFloat(_, 64)` returns for it uniquely, so the model
identifies the value with its rendering rather than embedding IEEE
arithmetic, exactly as `vOther` identifies a structured value with its
`json.Marshal` output. -/
inductive GoVal where
  | vBool : Bool → GoVal
  | vInt : Int → GoVal
  | vFloat : String → GoVal
  | vStr : String → GoVal
  | vBytes : List Nat → GoVal
  | vOther : Option String → GoVal
  deriving DecidableEq, Repr

/-- Values as `GetHash`'s decoder produces them (`interface{}` results).
`dFloat` keeps the decimal payload text whose `strconv.ParseFloat` value
the Go code would store; `dJson` keeps the JSON payload text (structural
parse not modelled). -/
inductive DecVal where
  | dBool : Bool → DecVal
  | dInt : Int → DecVal
  | dFloat : String → DecVal
  | dStr : String → DecVal
  | dBytes : List Nat → DecVal
  | dJson : String → DecVal
  deriving DecidableEq, Repr

/-- Error kinds surfaced by the memory backend. -/
inductive CErr where
  | expired
  | notFound
  | fieldNotFound
  | unsupportedType : String → CErr
  deriving DecidableEq, Repr

/-! ## Decimal formatting and parsing (Go `fmt %v` on integers, `strconv.ParseInt`) -/

/-- Digit characters of `n` in base 10 (most significant first), prepended
to `acc` — the standard decimal formatting Go's `strconv` uses. `fuel`
only bounds the recursion depth (any `fuel` with `n < 10 ^ fuel` produces
all digits); `natToDec` supplies `n + 1`, which always suffices. -/
def natToDecCore : Nat → Nat → List Char → List Char
  | 0, _, acc => acc
  | fuel + 1, n, acc =>
    let d := Char.ofNat (48 + n % 10)
    if n < 10 then d :: acc else natToDecCore fuel (n / 10) (d :: acc)

def natToDec (n : Nat) : List Char := natToDecCore (n + 1) n []

/-- Decimal representation of an integer as Go's `fmt.Sprintf("%v", _)`
prints members of the integer family: minus sign for negatives, digits. -/
def intToDecChars (i : Int) : List Char :=
  if i < 0 then '-' :: natToDec i.natAbs else natToDec i.toNat

/-- `strconv` digit value of a character, `none` if not `0`–`9`. -/
def digitVal? (c : Char) : Option Nat :=
  if 48 ≤ c.toNat ∧ c.toNat ≤ 57 then some (c.toNat - 48) else none

/-- Accumulating decimal parse over characters; `none` on any non-digit. -/
def parseDigitsAux : List Char → Nat → Option Nat
  | [], acc => some acc
  | c :: cs, acc =>
    match digitVal? c with
    | some d => parseDigitsAux cs (acc * 10 + d)
    | none => none

/-- Parse a nonempty all-digit string; `none` on empty or invalid input. -/
def parseDigits? (cs : List Char) : Option Nat :=
  match cs with
  | [] => none
  | _ => parseDigitsAux cs 0

/-- Go `strconv.ParseInt(s, 10, 64)` with the error discarded, as
`GetHash` does (`val, _ := strconv.ParseInt(parts[1], 10, 64)`): syntax
errors yield `0`; out-of-range values are clamped to the `int64` bounds
(`ParseInt` returns the saturated value alongside `ErrRange`). -/
def parseInt64Chars (cs : List Char) : Int :=
  match cs with
  | [] => 0
  | c :: rest =>
    if c = '-' then
      match parseDigits? rest with
      | some n => max (-(2 ^ 63 : Int)) (-(n : Int))
      | none => 0
    else if c = '+' then
      match parseDigits? rest with
      | some n => min ((2 ^ 63 : Int) - 1) (n : Int)
      | none => 0
    else
      match parseDigits? (c :: rest) with
      | some n => min ((2 ^ 63 : Int) - 1) (n : Int)
      | none => 0

/-! ## Hex codec (Go `fmt %x` on `[]byte`, `hex.DecodeString`) -/

/-- Lowercase hex digit character for `d < 16`, as `%x` prints. -/
def hexDigitChar (d : Nat) : Char :=
  Char.ofNat (if d < 10 then 48 + d else 87 + d)

/-- `fmt.Sprintf("%x", bs)`: two lowercase hex digits per byte. -/
def hexEncodeChars : List Nat → List Char
  | [] => []
  | b :: bs => hexDigitChar (b / 16) :: hexDigitChar (b % 16) :: hexEncodeChars bs

/-- `hex.DecodeString` digit value: `0-9`, `a-f`, `A-F`. -/
def fromHexChar? (c : Char) : Option Nat :=
  if 48 ≤ c.toNat ∧ c.toNat ≤ 57 then some (c.toNat - 48)
  else if 97 ≤ c.toNat ∧ c.toNat ≤ 102 then some (c.toNat - 87)
  else if 65 ≤ c.toNat ∧ c.toNat ≤ 70 then some (c.toNat - 55)
  else none

/-- `hex.DecodeString` with the error discarded, as `GetHash` does
(`data, _ := hex.DecodeString(parts[1])`): on malformed or odd-length
input the bytes decoded before the error are returned. -/
def hexDecodeChars : List Char → List Nat
  | c1 :: c2 :: rest =>
    match fromHexChar? c1, fromHexChar? c2 with
    | some h, some l => (h * 16 + l) :: hexDecodeChars rest
    | _, _ => []
  | _ => []

/-! ## The type-tagging codec (`SetHash`'s encoding, `GetHash`'s decoding) -/

def boolTag : List Char := ['b', 'o', 'o', 'l']
def intTag : List Char := ['i', 'n', 't']
def floatTag : List Char := ['f', 'l', 'o', 'a', 't']
def stringTag : List Char := ['s', 't', 'r', 'i', 'n', 'g']
def bytesTag : List Char := ['b', 'y', 't', 'e', 's']
def jsonTag : List Char := ['j', 's', 'o', 'n']
def trueChars : List Char := ['t', 'r', 'u', 'e']
def falseChars : List Char := ['f', 'a', 'l', 's', 'e']

/-- `"<tag>:<payload>"`. -/
def tagged (tag payload : List Char) : List Char := tag ++ ':' :: payload

/-- The encoding step of `SetHash`'s per-field `switch`: `bool:true`/
`bool:false`, `int:<decimal>`, `float:<decimal>` (the value's `%v`
shortest rendering, which `vFloat` carries), `string:<raw>`,
`bytes:<hex>`, `json:<marshal output>`; `none` when `json.Marshal` fails
on a structured value. -/
def encodeChars : GoVal → Option (List Char)
  | .vBool true => some (tagged boolTag trueChars)
  | .vBool false => some (tagged boolTag falseChars)
  | .vInt n => some (tagged intTag (intToDecChars n))
  | .vFloat r => some (tagged floatTag r.data)
  | .vStr s => some (tagged stringTag s.data)
  | .vBytes bs => some (tagged bytesTag (hexEncodeChars bs))
  | .vOther (some j) => some (tagged jsonTag j.data)
  | .vOther none => none

/-- `strings.SplitN(s, ":", 2)`: the part before the first colon and the
part after it, or `none` when the string holds no colon. -/
def splitFirstColon : List Char → Option (List Char × List Char)
  | [] => none
  | c :: cs =>
    if c = ':' then some ([], cs)
    else
      match splitFirstColon cs with
      | none => none
      | some (a, b) => some (c :: a, b)

/-- The decoding step of `GetHash`: split on the first colon, dispatch on
the tag; untagged or unknown-tagged strings pass through unchanged. -/
def decodeChars (cs : List Char) : DecVal :=
  match splitFirstColon cs with
  | none => .dStr ⟨cs⟩
  | some (tag, payload) =>
    if tag = boolTag then .dBool (payload = trueChars)
    else if tag = intTag then .dInt (parseInt64Chars payload)
    else if tag = floatTag then .dFloat ⟨payload⟩
    else if tag = stringTag then .dStr ⟨payload⟩
    else if tag = bytesTag then .dBytes (hexDecodeChars payload)
    else if tag = jsonTag then .dJson ⟨payload⟩
    else .dStr ⟨cs⟩

/-- String-level encoder used by `SetHash`. -/
def encodeVal (v : GoVal) : Option String := (encodeChars v).map String.mk

/-- String-level decoder used by `GetHash`. -/
def decodeVal (s : String) : DecVal := decodeChars s.data

/-- The decoded result a primitive value is expected to reproduce: the
same kind and numeric/textual content (all integer widths come back as a
64-bit signed integer value; a float comes back as the float64 its
shortest rendering denotes — the original value itself for a float64
input, by strconv's round-trip guarantee). -/
def expectedDec : GoVal → DecVal
  | .vBool b => .dBool b
  | .vInt n => .dInt n
  | .vFloat r => .dFloat r
  | .vStr s => .dStr s
  | .vBytes bs => .dBytes bs
  | .vOther _ => .dJson ""

/-- The primitive values whose representation is faithful: any bool,
float, or string, integers within the signed 64-bit range, byte lists
with entries below 256. -/
def primOk : GoVal → Bool
  | .vBool _ => true
  | .vInt n => decide (-(2 ^ 63 : Int) ≤ n ∧ n ≤ 2 ^ 63 - 1)
  | .vFloat _ => true
  | .vStr _ => true
  | .vBytes bs => bs.all (· < 256)
  | .vOther _ => false

/-- Decidable equality for `Except` results, used to evaluate concrete
operation outcomes. -/
instance exceptDecEq {ε α : Type} [DecidableEq ε] [DecidableEq α] :
    DecidableEq (Except ε α) := fun x y =>
  match x, y with
  | .ok a, .ok b =>
    if h : a = b then .isTrue (by rw [h]) else .isFalse (by simp [h])
  | .error a, .error b =>
    if h : a = b then .isTrue (by rw [h]) else .isFalse (by simp [h])
  | .ok _, .error _ => .isFalse (by simp)
  | .error _, .ok _ => .isFalse (by simp)

/-! ## Association lists with Go-map semantics (inner field maps) -/

/-- Lookup in an association list (Go map read). -/
def lookupA {α : Type} : List (String × α) → String → Option α
  | [], _ => none
  | (k', v') :: rest, k => if k' = k then some v' else lookupA rest k

/-- Insert/overwrite in an association list (Go map write). -/
def insertA {α : Type} : List (String × α) → String → α → List (String × α)
  | [], k, v => [(k, v)]
  | (k', v') :: rest, k, v =>
    if k' = k then (k, v) :: rest else (k', v') :: insertA rest k v

/-- Remove a key from an association list (Go `delete`). -/
def eraseA {α : Type} : List (String × α) → String → List (String × α)
  | [], _ => []
  | (k', v') :: rest, k => if k' = k then rest else (k', v') :: eraseA rest k

/-! ## The memory cache state -/

/-- Pointwise update of a function-map (Go map write/delete on the outer
indexes). -/
def upd {α : Type} (m : String → Option α) (k : String) (v : Option α) :
    String → Option α :=
  fun k' => if k' = k then v else m k'

/-- The `MemoryCache` struct: the embedded go-cache item map (value and
optional absolute expiration instant; `none` is go-cache's "no expiration",
stored when the effective duration is not positive), the `keyExpirations`
index maintained by `Set`, the `hashMaps` map-of-maps holding encoded
field strings, the `hashExpirations` index, and the configured
`defaultExpiration`. -/
structure MemState where
  cacheItems : String → Option (GoVal × Option Int)
  keyExpirations : String → Option Int
  hashMaps : String → Option (List (String × String))
  hashExpirations : String → Option Int
  defaultExpiration : Int

/-- A fresh store with the spec's default 5-minute expiration (300 time
units; the concrete figure is irrelevant to every theorem below). -/
def mcEmpty : MemState :=
  ⟨fun _ => none, fun _ => none, fun _ => none, fun _ => none, 300⟩

/-! ## Primary key-value store (backed by go-cache) -/

/-- go-cache `Set`: a duration equal to `DefaultExpiration` (0) is
replaced by the cache's default; a positive duration sets `now + d`;
otherwise the item never expires (`Expiration` left 0). -/
def goSet (m : String → Option (GoVal × Option Int)) (k : String) (v : GoVal)
    (d dflt now : Int) : String → Option (GoVal × Option Int) :=
  let d' := if d = 0 then dflt else d
  upd m k (some (v, if d' > 0 then some (now + d') else none))

/-- go-cache `Get` liveness: found unless absent or the recorded positive
expiration has strictly passed. Returns the live value. -/
def goGetLive (m : String → Option (GoVal × Option Int)) (k : String)
    (now : Int) : Option GoVal :=
  match m k with
  | none => none
  | some (v, none) => some v
  | some (v, some t) => if now > t then none else some v

/-- `Set`'s `switch`: `-1` maps to go-cache's `NoExpiration` (-1), `0` to
the store default, anything else is passed through. -/
def effExp (ttl dflt : Int) : Int :=
  if ttl = -1 then -1 else if ttl = 0 then dflt else ttl

/-- `MemoryCache.Set`: computes the effective duration, writes the
go-cache entry, and records `now + exp` in `keyExpirations` whenever the
effective duration is not `NoExpiration` (deleting the record otherwise). -/
def memSet (s : MemState) (k : String) (v : GoVal) (ttl now : Int) : MemState :=
  let exp := effExp ttl s.defaultExpiration
  { s with
    cacheItems := goSet s.cacheItems k v exp s.defaultExpiration now,
    keyExpirations :=
      if exp ≠ -1 then upd s.keyExpirations k (some (now + exp))
      else upd s.keyExpirations k none }

/-- `MemoryCache.Get`: go-cache lookup only (value, found). -/
def memGet (s : MemState) (k : String) (now : Int) : Option GoVal × Bool :=
  match goGetLive s.cacheItems k now with
  | some v => (some v, true)
  | none => (none, false)

/-- `MemoryCache.Delete`: removes the go-cache entry; `keyExpirations` is
left untouched (as in the source). -/
def memDelete (s : MemState) (k : String) : MemState :=
  { s with cacheItems := upd s.cacheItems k none }

/-- `MemoryCache.Exists`: reports dead when `keyExpirations` records a
passed instant, otherwise falls through to the go-cache lookup. -/
def memExists (s : MemState) (k : String) (now : Int) : Bool :=
  match s.keyExpirations k with
  | some t =>
    if now > t then false else (goGetLive s.cacheItems k now).isSome
  | none => (goGetLive s.cacheItems k now).isSome

/-- `MemoryCache.MSet`: one `effExp` computation, then a go-cache `Set`
per entry in iteration order; `keyExpirations` is not updated (as in the
source). -/
def msetLoop (dflt now exp : Int) :
    (String → Option (GoVal × Option Int)) → List (String × GoVal) →
    String → Option (GoVal × Option Int)
  | m, [] => m
  | m, (k, v) :: rest => msetLoop dflt now exp (goSet m k v exp dflt now) rest

def memMSet (s : MemState) (entries : List (String × GoVal)) (ttl now : Int) :
    MemState :=
  { s with
    cacheItems :=
      msetLoop s.defaultExpiration now (effExp ttl s.defaultExpiration)
        s.cacheItems entries }

/-- `MemoryCache.MGet`: builds the result map over the requested keys,
inserting only those the go-cache lookup finds live. -/
def mgetAcc (s : MemState) (now : Int) (acc : List (String × GoVal)) :
    List String → List (String × GoVal)
  | [] => acc
  | k :: rest =>
    match goGetLive s.cacheItems k now with
    | some v => mgetAcc s now (insertA acc k v) rest
    | none => mgetAcc s now acc rest

/-- `MGet` returns the result map and its (always-nil) error. -/
def memMGet (s : MemState) (keys : List String) (now : Int) :
    List (String × GoVal) × Option CErr :=
  (mgetAcc s now [] keys, none)

/-! ## Hash-table store -/

/-- The encoding loop of `SetHash`: encode fields in iteration order into
the fresh `newHash`; the first field whose value cannot be encoded aborts
with that field's name. -/
def encodeFields : List (String × GoVal) → Except String (List (String × String))
  | [] => .ok []
  | (f, v) :: rest =>
    match encodeVal v with
    | none => .error f
    | some e => (encodeFields rest).map (fun r => (f, e) :: r)

/-- `MemoryCache.SetHash`: builds the encoded `newHash` (returning the
per-field error before touching any state), then atomically replaces
`hashMaps[key]` with it and updates `hashExpirations` (`ttl > 0`:
`now + ttl`; `ttl == 0` with a positive default: `now + default`;
otherwise the index entry is deleted — permanent). -/
def memSetHash (s : MemState) (k : String) (fields : List (String × GoVal))
    (ttl now : Int) : Except CErr MemState :=
  match encodeFields fields with
  | .error f => .error (.unsupportedType f)
  | .ok newHash =>
    .ok { s with
      hashMaps := upd s.hashMaps k (some newHash),
      hashExpirations :=
        if ttl > 0 then upd s.hashExpirations k (some (now + ttl))
        else if ttl = 0 ∧ s.defaultExpiration > 0 then
          upd s.hashExpirations k (some (now + s.defaultExpiration))
        else upd s.hashExpirations k none }

/-- The read half of `GetHash` once the expiry gate has been passed:
`NotFound` for an absent key, else the decoded field map. -/
def getHashRead (s : MemState) (k : String) :
    Except CErr (List (String × DecVal)) × MemState :=
  match s.hashMaps k with
  | none => (.error .notFound, s)
  | some raw => (.ok (raw.map fun p => (p.1, decodeVal p.2)), s)

/-- `MemoryCache.GetHash`: when `hashExpirations` records a passed
instant the hash is evicted from both indexes and `Expired` returned;
otherwise the decoded map (or `NotFound`). -/
def memGetHash (s : MemState) (k : String) (now : Int) :
    Except CErr (List (String × DecVal)) × MemState :=
  match s.hashExpirations k with
  | some t =>
    if now > t then
      (.error .expired,
        { s with
          hashMaps := upd s.hashMaps k none,
          hashExpirations := upd s.hashExpirations k none })
    else getHashRead s k
  | none => getHashRead s k

/-- `MemoryCache.GetHashField` (read-only): expiry gate (no eviction),
then key and field presence; known tags return the payload, otherwise the
stored string passes through. -/
def fieldRepr (stored : String) : String :=
  match splitFirstColon stored.data with
  | none => stored
  | some (tag, payload) =>
    if tag = boolTag ∨ tag = intTag ∨ tag = floatTag ∨ tag = stringTag ∨
        tag = bytesTag ∨ tag = jsonTag then ⟨payload⟩
    else stored

def memGetHashField (s : MemState) (k f : String) (now : Int) :
    Except CErr String :=
  match s.hashExpirations k with
  | some t =>
    if now > t then .error .expired
    else
      match s.hashMaps k with
      | none => .error .notFound
      | some hash =>
        match lookupA hash f with
        | none => .error .fieldNotFound
        | some stored => .ok (fieldRepr stored)
  | none =>
    match s.hashMaps k with
    | none => .error .notFound
    | some hash =>
      match lookupA hash f with
      | none => .error .fieldNotFound
      | some stored => .ok (fieldRepr stored)

/-- `MemoryCache.DelHash`: `NotFound`/`FieldNotFound` gates, then the
field is removed; a drained hash is deleted together with its expiration
entry. -/
def memDelHash (s : MemState) (k f : String) : Except CErr MemState :=
  match s.hashMaps k with
  | none => .error .notFound
  | some hash =>
    match lookupA hash f with
    | none => .error .fieldNotFound
    | some _ =>
      let hash' := eraseA hash f
      if hash' = [] then
        .ok { s with
          hashMaps := upd s.hashMaps k none,
          hashExpirations := upd s.hashExpirations k none }
      else .ok { s with hashMaps := upd s.hashMaps k (some hash') }

/-- `MemoryCache.ExistHash` (read-only): `Expired` error when the index
records a passed instant; `false` (no error) for an absent key; else
field presence. -/
def memExistHash (s : MemState) (k f : String) (now : Int) :
    Bool × Option CErr :=
  match s.hashExpirations k with
  | some t =>
    if now > t then (false, some .expired)
    else
      match s.hashMaps k with
      | none => (false, none)
      | some hash => ((lookupA hash f).isSome, none)
  | none =>
    match s.hashMaps k with
    | none => (false, none)
    | some hash => ((lookupA hash f).isSome, none)

/-- `MemoryCache.ExpireHash`: `NotFound` gate; a positive ttl records
`now + ttl`, anything else deletes the index entry. -/
def memExpireHash (s : MemState) (k : String) (ttl now : Int) :
    Except CErr MemState :=
  match s.hashMaps k with
  | none => .error .notFound
  | some _ =>
    .ok { s with
      hashExpirations :=
        if ttl > 0 then upd s.hashExpirations k (some (now + ttl))
        else upd s.hashExpirations k none }

/-- One tick of `cleanupExpiredHashes`: every key of `hashExpirations`
whose instant has strictly passed is deleted from both `hashMaps` and
`hashExpirations`; everything else is untouched. -/
def memSweep (s : MemState) (now : Int) : MemState :=
  { s with
    hashMaps := fun k =>
      match s.hashExpirations k with
      | some t => if now > t then none else s.hashMaps k
      | none => s.hashMaps k,
    hashExpirations := fun k =>
      match s.hashExpirations k with
      | some t => if now > t then none else some t
      | none => none }

/-! ## Public operations as a step function -/

/-- The public operations of the memory backend (plus the reaper tick). -/
inductive MemOp where
  | set (k : String) (v : GoVal) (ttl : Int)
  | del (k : String)
  | mset (entries : List (String × GoVal)) (ttl : Int)
  | setHash (k : String) (fields : List (String × GoVal)) (ttl : Int)
  | getHash (k : String)
  | getHashField (k f : String)
  | delHash (k f : String)
  | existHash (k f : String)
  | expireHash (k : String) (ttl : Int)
  | sweep

/-- State transition of each operation (a failed `SetHash`/`DelHash`/
`ExpireHash` leaves the state unchanged; `GetHashField`/`ExistHash` are
read-only in the source). -/
def applyOp (s : MemState) (op : MemOp) (now : Int) : MemState :=
  match op with
  | .set k v ttl => memSet s k v ttl now
  | .del k => memDelete s k
  | .mset entries ttl => memMSet s entries ttl now
  | .setHash k fields ttl =>
    match memSetHash s k fields ttl now with
    | .ok s' => s'
    | .error _ => s
  | .getHash k => (memGetHash s k now).2
  | .getHashField _ _ => s
  | .existHash _ _ => s
  | .delHash k f =>
    match memDelHash s k f with
    | .ok s' => s'
    | .error _ => s
  | .expireHash k ttl =>
    match memExpireHash s k ttl now with
    | .ok s' => s'
    | .error _ => s
  | .sweep => memSweep s now

/-- The referential-integrity invariant of the hash-table store: no key
maps to a hash with zero fields. -/
def HashNonempty (s : MemState) : Prop :=
  ∀ k h, s.hashMaps k = some h → h ≠ []

/-- `SetHash` called with an empty field map is the one operation the
invariant does not survive; this predicate excludes it. -/
def opFieldsNonempty : MemOp → Prop
  | .setHash _ fields _ => fields ≠ []
  | _ => True

/-- First field name (in iteration order) whose value `SetHash`'s encoder
cannot serialize, if any. -/
def firstFailure : List (String × GoVal) → Option String
  | [] => none
  | (f, v) :: rest =>
    match encodeVal v with
    | none => some f
    | some _ => firstFailure rest

/-- A store holding one hash `"h" ↦ {"a" ↦ "string:x"}` due to expire at
instant 5, used to evaluate concrete scenarios. -/
def sampleHashState : MemState :=
  { mcEmpty with
    hashMaps := upd mcEmpty.hashMaps "h" (some [("a", "string:x")]),
    hashExpirations := upd mcEmpty.hashExpirations "h" (some 5) }

/-! ## Codec correctness lemmas -/

theorem digitChar_bounds : ∀ d, d < 10 →
    48 ≤ (Char.ofNat (48 + d)).toNat ∧ (Char.ofNat (48 + d)).toNat ≤ 57 := by
  decide

theorem digitVal?_digitChar : ∀ d, d < 10 →
    digitVal? (Char.ofNat (48 + d)) = some d := by
  decide

theorem natToDecCore_eq_append (fuel : Nat) :
    ∀ n acc, natToDecCore fuel n acc = natToDecCore fuel n [] ++ acc := by
  induction fuel with
  | zero => intro n acc; rfl
  | succ fuel ih =>
    intro n acc
    by_cases h : n < 10
    · simp [natToDecCore, h]
    · simp only [natToDecCore, h, if_false]
      rw [ih (n / 10), ih (n / 10) (Char.ofNat (48 + n % 10) :: [])]
      simp

theorem natToDec_ne_nil (n : Nat) : natToDec n ≠ [] := by
  rw [natToDec]
  by_cases h : n < 10
  · simp [natToDecCore, h]
  · simp only [natToDecCore, h, if_false]
    rw [natToDecCore_eq_append]
    simp

theorem digit_char_mem (fuel : Nat) :
    ∀ n c, c ∈ natToDecCore fuel n [] → 48 ≤ c.toNat ∧ c.toNat ≤ 57 := by
  induction fuel with
  | zero =>
    intro n c hc
    simp [natToDecCore] at hc
  | succ fuel ih =>
    intro n c hc
    by_cases h : n < 10
    · simp [natToDecCore, h] at hc
      subst hc
      exact digitChar_bounds (n % 10) (Nat.mod_lt _ (by omega))
    · simp only [natToDecCore, h, if_false] at hc
      rw [natToDecCore_eq_append] at hc
      rcases List.mem_append.1 hc with h1 | h2
      · exact ih (n / 10) c h1
      · simp at h2
        subst h2
        exact digitChar_bounds (n % 10) (Nat.mod_lt _ (by omega))

theorem parseDigitsAux_append (xs ys : List Char) (a : Nat) :
    parseDigitsAux (xs ++ ys) a =
      match parseDigitsAux xs a with
      | some a' => parseDigitsAux ys a'
      | none => none := by
  induction xs generalizing a with
  | nil => simp [parseDigitsAux]
  | cons c cs ih =>
    simp only [List.cons_append, parseDigitsAux]
    cases digitVal? c with
    | none => simp
    | some d => simp [ih]

theorem parseDigitsAux_natToDecCore (fuel : Nat) :
    ∀ n a, n < 10 ^ fuel →
      parseDigitsAux (natToDecCore fuel n []) a =
        some (a * 10 ^ (natToDecCore fuel n []).length + n) := by
  induction fuel with
  | zero =>
    intro n a hn
    have hn0 : n = 0 := by simpa using hn
    subst hn0
    simp [natToDecCore, parseDigitsAux]
  | succ fuel ih =>
    intro n a hn
    have hd : digitVal? (Char.ofNat (48 + n % 10)) = some (n % 10) :=
      digitVal?_digitChar (n % 10) (Nat.mod_lt _ (by omega))
    by_cases h : n < 10
    · simp only [natToDecCore, h, if_true]
      simp only [parseDigitsAux, hd, List.length_singleton, pow_one]
      have : n % 10 = n := Nat.mod_eq_of_lt h
      rw [this]
    · have hdiv : n / 10 < 10 ^ fuel := by
        rw [pow_succ] at hn
        omega
      simp only [natToDecCore, h, if_false]
      rw [natToDecCore_eq_append, parseDigitsAux_append, ih (n / 10) a hdiv]
      simp only [parseDigitsAux, hd]
      congr 1
      simp [List.length_append, pow_succ]
      ring_nf
      omega

theorem lt_ten_pow_succ (n : Nat) : n < 10 ^ (n + 1) := by
  induction n with
  | zero => decide
  | succ m ih =>
    rw [pow_succ]
    omega

theorem parseDigits?_natToDec (n : Nat) :
    parseDigits? (natToDec n) = some n := by
  rcases hxs : natToDec n with _ | ⟨c, cs⟩
  · exact absurd hxs (natToDec_ne_nil n)
  · have hlt : n < 10 ^ (n + 1) := lt_ten_pow_succ n
    have := parseDigitsAux_natToDecCore (n + 1) n 0 hlt
    rw [show natToDecCore (n + 1) n [] = natToDec n from rfl, hxs] at this
    simpa [parseDigits?] using this

theorem natToDec_head_digit (n : Nat) :
    ∃ c cs, natToDec n = c :: cs ∧ 48 ≤ c.toNat ∧ c.toNat ≤ 57 := by
  rcases hxs : natToDec n with _ | ⟨c, cs⟩
  · exact absurd hxs (natToDec_ne_nil n)
  · refine ⟨c, cs, rfl, ?_⟩
    have := digit_char_mem (n + 1) n c
    rw [show natToDecCore (n + 1) n [] = natToDec n from rfl, hxs] at this
    exact this (by simp)

/-- `strconv.ParseInt(_, 10, 64)` inverts decimal formatting for every
value within the signed 64-bit range. -/
theorem parseInt64_intToDec (i : Int)
    (hlo : -(2 ^ 63 : Int) ≤ i) (hhi : i ≤ 2 ^ 63 - 1) :
    parseInt64Chars (intToDecChars i) = i := by
  by_cases hneg : i < 0
  · rw [intToDecChars, if_pos hneg]
    have h1 : parseInt64Chars ('-' :: natToDec i.natAbs) =
        match parseDigits? (natToDec i.natAbs) with
        | some n => max (-(2 ^ 63 : Int)) (-(n : Int))
        | none => 0 := rfl
    rw [h1, parseDigits?_natToDec]
    show max (-(2 ^ 63 : Int)) (-(i.natAbs : Int)) = i
    omega
  · have hpos : 0 ≤ i := by omega
    rw [intToDecChars, if_neg hneg]
    rcases natToDec_head_digit i.toNat with ⟨c, cs, hxs, hc48, hc57⟩
    rw [hxs]
    rw [parseInt64Chars]
    have hcm : ¬c = '-' := by
      intro hcon
      rw [hcon] at hc48
      revert hc48
      decide
    have hcp : ¬c = '+' := by
      intro hcon
      rw [hcon] at hc48
      revert hc48
      decide
    rw [if_neg hcm, if_neg hcp]
    have hpd : parseDigits? (natToDec i.toNat) = some i.toNat :=
      parseDigits?_natToDec i.toNat
    rw [hxs] at hpd
    rw [hpd]
    simp only []
    omega

/-- Colon characters never occur in the decimal digits. -/
theorem colon_not_mem_intToDec (i : Int) : ':' ∉ intToDecChars i := by
  intro hmem
  rw [intToDecChars] at hmem
  by_cases hneg : i < 0
  · rw [if_pos hneg, List.mem_cons] at hmem
    rcases hmem with h | h
    · exact absurd h (by decide)
    · have := digit_char_mem (i.natAbs + 1) i.natAbs ':' h
      revert this
      decide
  · rw [if_neg hneg] at hmem
    have := digit_char_mem (i.toNat + 1) i.toNat ':' hmem
    revert this
    decide

/-- `SplitN(_, ":", 2)` recovers the tag and payload of a tagged string
whose tag holds no colon. -/
theorem splitFirstColon_tagged (tag payload : List Char) (h : ':' ∉ tag) :
    splitFirstColon (tagged tag payload) = some (tag, payload) := by
  induction tag with
  | nil => simp [tagged, splitFirstColon]
  | cons c cs ih =>
    simp at h
    rw [tagged, List.cons_append, splitFirstColon]
    rw [if_neg (fun hc => h.1 hc.symm)]
    rw [show (cs ++ ':' :: payload) = tagged cs payload from rfl]
    rw [ih h.2]

theorem fromHexChar?_hexDigitChar : ∀ d, d < 16 →
    fromHexChar? (hexDigitChar d) = some d := by
  decide

/-- Hex decoding inverts hex encoding on genuine byte lists. -/
theorem hexDecode_hexEncode (bs : List Nat) (h : ∀ b ∈ bs, b < 256) :
    hexDecodeChars (hexEncodeChars bs) = bs := by
  induction bs with
  | nil => rfl
  | cons b rest ih =>
    have hb : b < 256 := h b (by simp)
    have hhi : b / 16 < 16 := by omega
    have hlo : b % 16 < 16 := Nat.mod_lt _ (by omega)
    rw [hexEncodeChars, hexDecodeChars,
      fromHexChar?_hexDigitChar _ hhi, fromHexChar?_hexDigitChar _ hlo]
    simp only []
    rw [ih (fun x hx => h x (by simp [hx]))]
    congr 1
    omega

theorem decodeChars_tagged_bool (p : List Char) :
    decodeChars (tagged boolTag p) = .dBool (p = trueChars) := rfl

theorem decodeChars_tagged_int (p : List Char) :
    decodeChars (tagged intTag p) = .dInt (parseInt64Chars p) := rfl

theorem decodeChars_tagged_float (p : List Char) :
    decodeChars (tagged floatTag p) = .dFloat ⟨p⟩ := rfl

theorem decodeChars_tagged_string (p : List Char) :
    decodeChars (tagged stringTag p) = .dStr ⟨p⟩ := rfl

theorem decodeChars_tagged_bytes (p : List Char) :
    decodeChars (tagged bytesTag p) = .dBytes (hexDecodeChars p) := rfl

/-- C1 (amended form, proved): decode inverts encode on all five
primitive kinds — bool, integer (within the signed 64-bit range), float
(carried through its shortest decimal rendering, which `ParseFloat` maps
back to the original float64 exactly), string, and byte sequence. -/
theorem codec_roundtrip_prim (v : GoVal) (hv : primOk v = true) :
    ∀ e, encodeChars v = some e → decodeChars e = expectedDec v := by
  intro e he
  cases v with
  | vBool b =>
    cases b
    · cases he
      decide
    · cases he
      decide
  | vInt n =>
    cases he
    rw [decodeChars_tagged_int, expectedDec]
    have hb := of_decide_eq_true hv
    rw [parseInt64_intToDec n hb.1 hb.2]
  | vFloat r =>
    cases he
    rw [decodeChars_tagged_float, expectedDec]
  | vStr s =>
    cases he
    rw [decodeChars_tagged_string, expectedDec]
  | vBytes bs =>
    cases he
    rw [decodeChars_tagged_bytes, expectedDec]
    have hb : ∀ b ∈ bs, b < 256 := by
      simpa [primOk, List.all_eq_true] using hv
    rw [hexDecode_hexEncode bs hb]
  | vOther o =>
    cases o with
    | none => cases he
    | some j => exact absurd hv (by simp [primOk])

/-- C1 counterexample: the uint64 value `2^63` encodes to
`"int:9223372036854775808"`, which the decoder clamps to the int64
maximum `2^63 - 1`, so its numeric value is not reproduced. -/
theorem codec_int_overflow_cex :
    (encodeChars (GoVal.vInt 9223372036854775808)).map decodeChars =
      some (DecVal.dInt 9223372036854775807) ∧
    expectedDec (GoVal.vInt 9223372036854775808) ≠
      DecVal.dInt 9223372036854775807 := by
  constructor
  · decide
  · decide

/-- Witness for `codec_roundtrip_prim` at the concrete values `int 42`
and the float rendered `"2.5"`. -/
theorem codec_roundtrip_prim_witness :
    (primOk (GoVal.vInt 42) = true ∧
      decodeChars (tagged intTag (intToDecChars 42)) =
        expectedDec (GoVal.vInt 42)) ∧
    (primOk (GoVal.vFloat "2.5") = true ∧
      decodeChars (tagged floatTag "2.5".data) =
        expectedDec (GoVal.vFloat "2.5")) :=
  ⟨⟨by decide, codec_roundtrip_prim (GoVal.vInt 42) (by decide) _ rfl⟩,
    ⟨by decide, codec_roundtrip_prim (GoVal.vFloat "2.5") (by decide) _ rfl⟩⟩

/-! ## State-level lemmas and sample states -/

theorem upd_self {α : Type} (m : String → Option α) (k : String)
    (v : Option α) : upd m k v k = v := by
  simp [upd]

theorem upd_other {α : Type} (m : String → Option α) (k k' : String)
    (v : Option α) (h : k' ≠ k) : upd m k v k' = m k' := by
  simp [upd, h]

/-- C3: `GetHash` distinguishes absence from expiry — a key absent from
both the hash map and the expiration index fails with `NotFound`, and a
key whose recorded expiration instant has passed fails with `Expired`. -/
theorem getHash_notFound_vs_expired (s : MemState) (k : String) (now : Int) :
    (s.hashExpirations k = none → s.hashMaps k = none →
      (memGetHash s k now).1 = .error .notFound) ∧
    (∀ t, s.hashExpirations k = some t → now > t →
      (memGetHash s k now).1 = .error .expired) := by
  constructor
  · intro h1 h2
    simp [memGetHash, h1, getHashRead, h2]
  · intro t h1 h2
    simp [memGetHash, h1, h2]

/-- Witness for `getHash_notFound_vs_expired`: a never-set key reports
`NotFound` in the empty store; the sample key expired at 5 reports
`Expired` at time 10. -/
theorem getHash_notFound_vs_expired_witness :
    (memGetHash mcEmpty "nope" 0).1 = .error CErr.notFound ∧
    (memGetHash sampleHashState "h" 10).1 = .error CErr.expired :=
  ⟨(getHash_notFound_vs_expired mcEmpty "nope" 0).1 rfl rfl,
    (getHash_notFound_vs_expired sampleHashState "h" 10).2 5 (by decide)
      (by decide)⟩

/-- C7: `GetHash` on a key whose expiration instant has passed both fails
with `Expired` and evicts the hash from the hash map and the expiration
index as a side effect of the read. -/
theorem getHash_expired_evicts (s : MemState) (k : String) (now t : Int)
    (h1 : s.hashExpirations k = some t) (h2 : now > t) :
    (memGetHash s k now).1 = .error .expired ∧
    (memGetHash s k now).2.hashMaps k = none ∧
    (memGetHash s k now).2.hashExpirations k = none := by
  simp [memGetHash, h1, h2, upd]

/-- Witness for `getHash_expired_evicts` on the sample expired hash. -/
theorem getHash_expired_evicts_witness :
    (memGetHash sampleHashState "h" 10).1 = .error CErr.expired ∧
    (memGetHash sampleHashState "h" 10).2.hashMaps "h" = none ∧
    (memGetHash sampleHashState "h" 10).2.hashExpirations "h" = none :=
  getHash_expired_evicts sampleHashState "h" 10 5 (by decide) (by decide)

/-- C8: one reaper sweep at time `now` removes from both structures every
hash key whose recorded expiration instant has passed, and leaves every
other key (unexpired or never-expiring) unchanged in both structures. -/
theorem sweep_spec (s : MemState) (now : Int) (k : String) :
    (∀ t, s.hashExpirations k = some t → now > t →
      (memSweep s now).hashMaps k = none ∧
      (memSweep s now).hashExpirations k = none) ∧
    ((∀ t, s.hashExpirations k = some t → ¬now > t) →
      (memSweep s now).hashMaps k = s.hashMaps k ∧
      (memSweep s now).hashExpirations k = s.hashExpirations k) := by
  constructor
  · intro t h1 h2
    simp [memSweep, h1, h2]
  · intro h
    cases hE : s.hashExpirations k with
    | none => simp [memSweep, hE]
    | some t =>
      have hnot := h t hE
      simp [memSweep, hE, hnot]

/-- Witness for `sweep_spec`: sweeping the sample store at time 10
removes the hash expired at 5; sweeping at time 3 leaves it alone. -/
theorem sweep_spec_witness :
    ((memSweep sampleHashState 10).hashMaps "h" = none ∧
      (memSweep sampleHashState 10).hashExpirations "h" = none) ∧
    ((memSweep sampleHashState 3).hashMaps "h" = sampleHashState.hashMaps "h" ∧
      (memSweep sampleHashState 3).hashExpirations "h" =
        sampleHashState.hashExpirations "h") :=
  ⟨(sweep_spec sampleHashState 10 "h").1 5 (by decide) (by decide),
    (sweep_spec sampleHashState 3 "h").2 (by
      intro t ht
      have h5 : sampleHashState.hashExpirations "h" = some (5 : Int) := by
        decide
      rw [h5, Option.some_inj] at ht
      omega)⟩

/-- C5 (amended form, proved): full characterization of `Set`'s
expiration policy. `ttl = -1` yields a never-expiring entry; `ttl > 0`
expires at `now + ttl` in both the primary map and the key-expiration
index; `ttl = 0` substitutes the configured default (never-expiring in
the primary map when the default is not positive, with the index cleared
only when the default is exactly -1); any other negative `ttl` stores a
never-expiring primary entry while recording the already-past instant
`now + ttl` in the index. The entry under `k` is overwritten
unconditionally and no other key is touched. -/
theorem set_ttl_spec (s : MemState) (k : String) (v : GoVal)
    (ttl now : Int) :
    (ttl = -1 →
      (memSet s k v ttl now).cacheItems k = some (v, none) ∧
      (memSet s k v ttl now).keyExpirations k = none) ∧
    (ttl > 0 →
      (memSet s k v ttl now).cacheItems k = some (v, some (now + ttl)) ∧
      (memSet s k v ttl now).keyExpirations k = some (now + ttl)) ∧
    (ttl = 0 → s.defaultExpiration > 0 →
      (memSet s k v ttl now).cacheItems k =
        some (v, some (now + s.defaultExpiration)) ∧
      (memSet s k v ttl now).keyExpirations k =
        some (now + s.defaultExpiration)) ∧
    (ttl = 0 → s.defaultExpiration ≤ 0 →
      (memSet s k v ttl now).cacheItems k = some (v, none) ∧
      (memSet s k v ttl now).keyExpirations k =
        (if s.defaultExpiration = -1 then none
          else some (now + s.defaultExpiration))) ∧
    (ttl < 0 → ttl ≠ -1 →
      (memSet s k v ttl now).cacheItems k = some (v, none) ∧
      (memSet s k v ttl now).keyExpirations k = some (now + ttl)) ∧
    (∀ k', k' ≠ k →
      (memSet s k v ttl now).cacheItems k' = s.cacheItems k' ∧
      (memSet s k v ttl now).keyExpirations k' = s.keyExpirations k') := by
  refine ⟨?_, ?_, ?_, ?_, ?_, ?_⟩
  · intro h
    subst h
    simp [memSet, effExp, goSet, upd]
  · intro h
    have h1 : ttl ≠ -1 := by omega
    have h0 : ttl ≠ 0 := by omega
    simp [memSet, effExp, goSet, upd, h, h1, h0]
  · intro h hd
    subst h
    have h1 : s.defaultExpiration ≠ -1 := by omega
    have h0 : s.defaultExpiration ≠ 0 := by omega
    simp [memSet, effExp, goSet, upd, hd, h1, h0]
  · intro h hd
    subst h
    by_cases h1 : s.defaultExpiration = -1
    · simp [memSet, effExp, goSet, upd, h1]
    · have hng : ¬s.defaultExpiration > 0 := by omega
      by_cases hz : s.defaultExpiration = 0
      · simp [memSet, effExp, goSet, upd, hz, h1]
      · simp [memSet, effExp, goSet, upd, hz, h1, hng]
  · intro h h1
    have h0 : ttl ≠ 0 := by omega
    have hng : ¬ttl > 0 := by omega
    simp [memSet, effExp, goSet, upd, h1, h0, hng]
  · intro k' hk
    constructor
    · simp [memSet, effExp, goSet, upd, hk]
    · show (if _ then upd s.keyExpirations k _ else upd s.keyExpirations k none)
        k' = s.keyExpirations k'
      split <;> simp [upd, hk]

/-- Witness for `set_ttl_spec` at `ttl = 5` on the empty store. -/
theorem set_ttl_spec_witness :
    (memSet mcEmpty "k" (GoVal.vInt 1) 5 0).cacheItems "k" =
      some (GoVal.vInt 1, some 5) ∧
    (memSet mcEmpty "k" (GoVal.vInt 1) 5 0).keyExpirations "k" = some 5 :=
  (set_ttl_spec mcEmpty "k" (GoVal.vInt 1) 5 0).2.1 (by decide)

/-- C5 counterexample: `Set` with `ttl = -2` (negative but not -1) does
not store a never-expiring entry — the key-expiration index records the
already-past instant `now - 2`, so the store's own `Exists` immediately
reports the key dead even though the primary map holds it without an
expiration. -/
theorem set_negative_ttl_cex :
    (memSet mcEmpty "k" (GoVal.vStr "v") (-2) 0).keyExpirations "k" =
      some (-2) ∧
    memExists (memSet mcEmpty "k" (GoVal.vStr "v") (-2) 0) "k" 0 = false ∧
    (memGet (memSet mcEmpty "k" (GoVal.vStr "v") (-2) 0) "k" 0).2 = true := by
  refine ⟨by decide, by decide, by decide⟩

/-- C6 (amended form, proved): `Exists` agrees with `Get`'s found flag
whenever the key-expiration index holds no already-passed instant for the
key (in particular after any `Set` with `ttl = -1` or an unexpired
positive ttl); the index can disagree with the primary map after `Set`
with a negative ttl other than -1 or after `MSet`, and then `Exists`
reports false while `Get` reports found. -/
theorem exists_matches_get (s : MemState) (k : String) (now : Int)
    (h : ∀ t, s.keyExpirations k = some t → ¬now > t) :
    memExists s k now = (memGet s k now).2 := by
  have hg : (memGet s k now).2 = (goGetLive s.cacheItems k now).isSome := by
    rw [memGet]
    cases goGetLive s.cacheItems k now <;> rfl
  rw [hg]
  cases hE : s.keyExpirations k with
  | none => simp [memExists, hE]
  | some t =>
    have hnot := h t hE
    simp [memExists, hE, hnot]

/-- Witness for `exists_matches_get`: after `Set` with ttl 5 at time 0,
`Exists` and `Get` agree at time 0. -/
theorem exists_matches_get_witness :
    memExists (memSet mcEmpty "k" (GoVal.vInt 1) 5 0) "k" 0 =
      (memGet (memSet mcEmpty "k" (GoVal.vInt 1) 5 0) "k" 0).2 :=
  exists_matches_get _ "k" 0 (by
    intro t ht
    have hk : (memSet mcEmpty "k" (GoVal.vInt 1) 5 0).keyExpirations "k" =
        some (5 : Int) := by decide
    rw [hk, Option.some_inj] at ht
    omega)

/-- C6 counterexample: after `Set` with ttl -5 at time 100, `Exists`
reports false while `Get` reports found in the same state, so the two do
not apply the same liveness rule. -/
theorem exists_get_disagree_cex :
    memExists (memSet mcEmpty "x" (GoVal.vInt 7) (-5) 100) "x" 100 = false ∧
    (memGet (memSet mcEmpty "x" (GoVal.vInt 7) (-5) 100) "x" 100).2 = true := by
  refine ⟨by decide, by decide⟩

/-- C2 counterexample: `SetHash("h", {"a":1})` followed by
`SetHash("h", {"b":2})` leaves field `"a"` absent — the second call
replaced the whole field map — even though the first call had stored
`"a" ↦ "int:1"`. -/
theorem setHash_replace_cex :
    (memSetHash mcEmpty "h" [("a", GoVal.vInt 1)] (-1) 0).toOption.map
      (fun s1 => (s1.hashMaps "h").map (fun h => lookupA h "a")) =
      some (some (some "int:1")) ∧
    ((memSetHash mcEmpty "h" [("a", GoVal.vInt 1)] (-1) 0).bind
      (fun s1 => memSetHash s1 "h" [("b", GoVal.vInt 2)] (-1) 0)).toOption.map
      (fun s2 => (s2.hashMaps "h").map (fun h => lookupA h "a")) =
      some (some none) := by
  refine ⟨by decide, by decide⟩

/-- C2 (amended form, proved): `SetHash` atomically replaces the hash
under the key with exactly the encoded fields of this call — previously
existing fields not named in the call are dropped — and leaves every
other key's hash untouched. -/
theorem setHash_replaces (s : MemState) (k : String)
    (fields : List (String × GoVal)) (ttl now : Int)
    (enc : List (String × String)) (henc : encodeFields fields = .ok enc) :
    ∃ s', memSetHash s k fields ttl now = .ok s' ∧
      s'.hashMaps k = some enc ∧
      ∀ k', k' ≠ k → s'.hashMaps k' = s.hashMaps k' := by
  simp only [memSetHash, henc]
  refine ⟨_, rfl, ?_, ?_⟩
  · simp [upd]
  · intro k' hk
    simp [upd, hk]

/-- Witness for `setHash_replaces` at a concrete one-field call. -/
theorem setHash_replaces_witness :
    ∃ s', memSetHash mcEmpty "h" [("a", GoVal.vInt 1)] (-1) 0 = .ok s' ∧
      s'.hashMaps "h" = some [("a", "int:1")] ∧
      ∀ k', k' ≠ "h" → s'.hashMaps k' = mcEmpty.hashMaps k' :=
  setHash_replaces mcEmpty "h" [("a", GoVal.vInt 1)] (-1) 0
    [("a", "int:1")] (by decide)

theorem encodeFields_error_of_firstFailure (fields : List (String × GoVal))
    (f : String) (hf : firstFailure fields = some f) :
    encodeFields fields = .error f := by
  induction fields with
  | nil => simp [firstFailure] at hf
  | cons p rest ih =>
    obtain ⟨g, v⟩ := p
    rw [firstFailure] at hf
    cases hev : encodeVal v with
    | none =>
      rw [hev] at hf
      simp at hf
      subst hf
      simp [encodeFields, hev]
    | some e =>
      rw [hev] at hf
      simp at hf
      simp [encodeFields, hev, ih hf, Except.map]

/-- C10: when some field value cannot be encoded, `SetHash` fails with an
error naming the (first) offending field, and the store state is left
entirely unchanged — no field is written and neither index is touched. -/
theorem setHash_encoding_failure_atomic (s : MemState) (k : String)
    (fields : List (String × GoVal)) (ttl now : Int) (f : String)
    (hf : firstFailure fields = some f) :
    memSetHash s k fields ttl now = .error (.unsupportedType f) ∧
    applyOp s (.setHash k fields ttl) now = s := by
  have henc := encodeFields_error_of_firstFailure fields f hf
  constructor
  · rw [memSetHash, henc]
  · simp [applyOp, memSetHash, henc]

/-- Witness for `setHash_encoding_failure_atomic`: a single unmarshalable
field aborts the call with its name and leaves the empty store intact. -/
theorem setHash_encoding_failure_atomic_witness :
    memSetHash mcEmpty "h" [("bad", GoVal.vOther none)] 5 0 =
      .error (.unsupportedType "bad") ∧
    applyOp mcEmpty (.setHash "h" [("bad", GoVal.vOther none)] 5) 0 =
      mcEmpty :=
  setHash_encoding_failure_atomic mcEmpty "h" [("bad", GoVal.vOther none)]
    5 0 "bad" (by decide)

theorem lookupA_insertA {α : Type} (m : List (String × α)) (k k' : String)
    (v : α) :
    lookupA (insertA m k v) k' = if k' = k then some v else lookupA m k' := by
  induction m with
  | nil =>
    show (if k = k' then some v else none) = if k' = k then some v else none
    by_cases h : k = k'
    · simp [h]
    · rw [if_neg h, if_neg (fun hc => h hc.symm)]
  | cons p rest ih =>
    obtain ⟨a, b⟩ := p
    by_cases hak : a = k
    · subst hak
      by_cases h : a = k'
      · simp [insertA, lookupA, h]
      · have h2 : ¬k' = a := fun hc => h hc.symm
        simp [insertA, lookupA, h, h2]
    · have hka : ¬k = a := fun hc => hak hc.symm
      by_cases h : a = k'
      · have hk'k : ¬k' = k := fun hc => hak (h.trans hc)
        simp [insertA, lookupA, hak, h, hk'k]
      · have hk'a : ¬k' = a := fun hc => h hc.symm
        simp [insertA, lookupA, hak, h, hk'a, ih]

theorem mgetAcc_lookup (s : MemState) (now : Int) (keys : List String) :
    ∀ acc k, lookupA (mgetAcc s now acc keys) k =
      if k ∈ keys ∧ (goGetLive s.cacheItems k now).isSome then
        goGetLive s.cacheItems k now
      else lookupA acc k := by
  induction keys with
  | nil =>
    intro acc k
    simp [mgetAcc]
  | cons k0 rest ih =>
    intro acc k
    by_cases hk : k = k0
    · subst hk
      cases hg : goGetLive s.cacheItems k now with
      | some v =>
        simp only [mgetAcc, hg]
        rw [ih]
        by_cases hin : k ∈ rest
        · simp [hin, hg]
        · simp [hin, hg, lookupA_insertA]
      | none =>
        simp only [mgetAcc, hg]
        rw [ih]
        simp [hg]
    · cases hg : goGetLive s.cacheItems k0 now with
      | some v =>
        simp only [mgetAcc, hg]
        rw [ih]
        by_cases hin : k ∈ rest
        · simp [hin, hk, lookupA_insertA]
        · simp [hin, hk, lookupA_insertA]
      | none =>
        simp only [mgetAcc, hg]
        rw [ih]
        simp [hk]

theorem msetLoop_not_mem (dflt now exp : Int)
    (entries : List (String × GoVal)) :
    ∀ m k, k ∉ entries.map Prod.fst →
      msetLoop dflt now exp m entries k = m k := by
  induction entries with
  | nil =>
    intro m k _
    rfl
  | cons p rest ih =>
    obtain ⟨k0, v0⟩ := p
    intro m k hk
    rw [List.map_cons] at hk
    have hk1 : ¬k = k0 := fun hc => hk (by simp [hc])
    have hk2 : k ∉ rest.map Prod.fst := fun hc => hk (by simp [hc])
    rw [msetLoop, ih _ k hk2]
    simp [goSet, upd, hk1]

theorem msetLoop_mem (dflt now exp : Int) (entries : List (String × GoVal))
    (hnd : (entries.map Prod.fst).Nodup) :
    ∀ m k v, (k, v) ∈ entries →
      msetLoop dflt now exp m entries k = goSet m k v exp dflt now k := by
  induction entries with
  | nil =>
    intro m k v hm
    simp at hm
  | cons p rest ih =>
    obtain ⟨k0, v0⟩ := p
    intro m k v hm
    rw [List.map_cons] at hnd
    have hnd' := List.nodup_cons.1 hnd
    rcases List.mem_cons.1 hm with h1 | h2
    · injection h1 with hk hv
      subst hk
      subst hv
      rw [msetLoop, msetLoop_not_mem _ _ _ rest _ k hnd'.1]
    · rw [msetLoop, ih hnd'.2 _ k v h2]
      simp [goSet, upd]

/-- C9: `MGet` returns (with a nil error) exactly the requested keys that
are live in the primary store, each bound to its stored value, omitting
absent or expired keys; and `MSet` gives each entry of its input the very
expiration `Set` would give it as a single entry. -/
theorem mget_mset_spec :
    (∀ (s : MemState) (keys : List String) (now : Int) (k : String),
      (memMGet s keys now).2 = none ∧
      lookupA (memMGet s keys now).1 k =
        (if k ∈ keys then goGetLive s.cacheItems k now else none)) ∧
    (∀ (s : MemState) (entries : List (String × GoVal)) (ttl now : Int)
        (k : String) (v : GoVal),
      (entries.map Prod.fst).Nodup → (k, v) ∈ entries →
      (memMSet s entries ttl now).cacheItems k =
        (memSet s k v ttl now).cacheItems k) := by
  constructor
  · intro s keys now k
    refine ⟨rfl, ?_⟩
    rw [memMGet]
    simp only []
    rw [mgetAcc_lookup]
    by_cases hin : k ∈ keys
    · cases hg : goGetLive s.cacheItems k now with
      | some v => simp [hin, hg, lookupA]
      | none => simp [hin, hg, lookupA]
    · simp [hin, lookupA]
  · intro s entries ttl now k v hnd hm
    rw [memMSet, memSet]
    simp only []
    rw [msetLoop_mem _ _ _ entries hnd s.cacheItems k v hm]

/-- Witness for `mget_mset_spec`: a two-entry `MSet` stores `"x"` exactly
as the corresponding single `Set` would. -/
theorem mget_mset_spec_witness :
    (memMSet mcEmpty [("x", GoVal.vInt 1), ("y", GoVal.vInt 2)] 5 0).cacheItems
      "x" = (memSet mcEmpty "x" (GoVal.vInt 1) 5 0).cacheItems "x" :=
  mget_mset_spec.2 mcEmpty [("x", GoVal.vInt 1), ("y", GoVal.vInt 2)] 5 0
    "x" (GoVal.vInt 1) (by decide) (by decide)

theorem encodeFields_ok_length (fields : List (String × GoVal))
    (enc : List (String × String)) (h : encodeFields fields = .ok enc) :
    enc.length = fields.length := by
  induction fields generalizing enc with
  | nil =>
    simp [encodeFields] at h
    subst h
    rfl
  | cons p rest ih =>
    obtain ⟨f, v⟩ := p
    rw [encodeFields] at h
    cases hev : encodeVal v with
    | none =>
      rw [hev] at h
      simp at h
    | some e =>
      rw [hev] at h
      cases hrest : encodeFields rest with
      | error g =>
        rw [hrest] at h
        simp [Except.map] at h
      | ok r =>
        rw [hrest] at h
        simp [Except.map] at h
        subst h
        simp [ih r hrest]

theorem getHashRead_state (s : MemState) (k : String) :
    (getHashRead s k).2 = s := by
  rw [getHashRead]
  cases s.hashMaps k <;> rfl

/-- C4 (amended form, proved): every public operation — except `SetHash`
called with an empty field map, which installs an empty hash — and every
reaper sweep preserves the invariant that no key maps to a hash with zero
fields; and whenever `DelHash` drains a hash to zero fields it removes
the hash and its expiration entry together, so a subsequent `GetHash` on
that key fails with `NotFound` rather than returning an empty map. -/
theorem hash_nonempty_invariant :
    (∀ (s : MemState) (op : MemOp) (now : Int),
      HashNonempty s → opFieldsNonempty op →
      HashNonempty (applyOp s op now)) ∧
    (∀ (s : MemState) (k f : String) (s' : MemState) (now : Int),
      memDelHash s k f = .ok s' → s'.hashMaps k = none →
      (memGetHash s' k now).1 = .error .notFound) := by
  constructor
  · intro s op now hInv hOp
    cases op with
    | set k v ttl => exact fun a b hb => hInv a b hb
    | del k => exact fun a b hb => hInv a b hb
    | mset entries ttl => exact fun a b hb => hInv a b hb
    | setHash k fields ttl =>
      simp only [applyOp]
      cases henc : encodeFields fields with
      | error g =>
        simp only [memSetHash, henc]
        exact fun a b hb => hInv a b hb
      | ok enc =>
        simp only [memSetHash, henc]
        intro a b hb
        simp only [upd] at hb
        by_cases hak : a = k
        · rw [if_pos hak] at hb
          have hlen := encodeFields_ok_length fields enc henc
          intro hbnil
          subst hbnil
          rw [Option.some_inj] at hb
          rw [hb] at hlen
          cases fields with
          | nil => exact hOp rfl
          | cons q qs => simp at hlen
        · rw [if_neg hak] at hb
          exact hInv a b hb
    | getHash k =>
      simp only [applyOp, memGetHash]
      cases hE : s.hashExpirations k with
      | none =>
        rw [getHashRead_state]
        exact fun a b hb => hInv a b hb
      | some t =>
        by_cases ht : now > t
        · simp only [ht, if_true]
          intro a b hb
          simp only [upd] at hb
          by_cases hak : a = k
          · rw [if_pos hak] at hb
            cases hb
          · rw [if_neg hak] at hb
            exact hInv a b hb
        · simp only [ht, if_false]
          rw [getHashRead_state]
          exact fun a b hb => hInv a b hb
    | getHashField k f => exact fun a b hb => hInv a b hb
    | existHash k f => exact fun a b hb => hInv a b hb
    | delHash k f =>
      cases hM : s.hashMaps k with
      | none =>
        have hstate : applyOp s (.delHash k f) now = s := by
          simp [applyOp, memDelHash, hM]
        rw [hstate]
        exact hInv
      | some hash =>
        cases hL : lookupA hash f with
        | none =>
          have hstate : applyOp s (.delHash k f) now = s := by
            simp [applyOp, memDelHash, hM, hL]
          rw [hstate]
          exact hInv
        | some w =>
          by_cases hdrain : eraseA hash f = []
          · have hstate : applyOp s (.delHash k f) now = { s with
                hashMaps := upd s.hashMaps k none,
                hashExpirations := upd s.hashExpirations k none } := by
              simp [applyOp, memDelHash, hM, hL, hdrain]
            rw [hstate]
            intro a b hb
            simp only [upd] at hb
            by_cases hak : a = k
            · rw [if_pos hak] at hb
              cases hb
            · rw [if_neg hak] at hb
              exact hInv a b hb
          · have hstate : applyOp s (.delHash k f) now = { s with
                hashMaps := upd s.hashMaps k (some (eraseA hash f)) } := by
              simp [applyOp, memDelHash, hM, hL, hdrain]
            rw [hstate]
            intro a b hb
            simp only [upd] at hb
            by_cases hak : a = k
            · rw [if_pos hak, Option.some_inj] at hb
              rw [← hb]
              exact hdrain
            · rw [if_neg hak] at hb
              exact hInv a b hb
    | expireHash k ttl =>
      simp only [applyOp, memExpireHash]
      cases hM : s.hashMaps k with
      | none => exact fun a b hb => hInv a b hb
      | some hash => exact fun a b hb => hInv a b hb
    | sweep =>
      intro a b hb
      simp only [applyOp, memSweep] at hb
      cases hE : s.hashExpirations a with
      | none =>
        rw [hE] at hb
        exact hInv a b hb
      | some t =>
        rw [hE] at hb
        by_cases ht : now > t
        · simp [ht] at hb
        · simp [ht] at hb
          exact hInv a b hb
  · intro s k f s' now hdel hnone
    cases hM : s.hashMaps k with
    | none => simp [memDelHash, hM] at hdel
    | some hash =>
      cases hL : lookupA hash f with
      | none => simp [memDelHash, hM, hL] at hdel
      | some w =>
        by_cases hdrain : eraseA hash f = []
        · have hs' : s' = { s with
              hashMaps := upd s.hashMaps k none,
              hashExpirations := upd s.hashExpirations k none } := by
            simp [memDelHash, hM, hL, hdrain] at hdel
            exact hdel.symm
          subst hs'
          simp [memGetHash, getHashRead, upd]
        · have hs' : s' = { s with
              hashMaps := upd s.hashMaps k (some (eraseA hash f)) } := by
            simp [memDelHash, hM, hL, hdrain] at hdel
            exact hdel.symm
          subst hs'
          simp [upd] at hnone

/-- Witness for `hash_nonempty_invariant`: `DelHash` on the empty store
preserves the invariant, and draining the sample one-field hash makes a
subsequent `GetHash` report `NotFound`. -/
theorem hash_nonempty_invariant_witness :
    HashNonempty (applyOp mcEmpty (MemOp.delHash "a" "b") 0) ∧
    (memGetHash (applyOp sampleHashState (MemOp.delHash "h" "a") 0) "h" 0).1 =
      .error CErr.notFound :=
  ⟨hash_nonempty_invariant.1 mcEmpty (MemOp.delHash "a" "b") 0
      (fun _ _ hb => Option.noConfusion hb) trivial,
    hash_nonempty_invariant.2 sampleHashState "h" "a" _ 0 rfl rfl⟩

/-- C4 counterexample: `SetHash` with an empty field map installs an
empty hash — the invariant does not hold across every public operation as
claimed: afterwards the key maps to a hash with zero fields and `GetHash`
returns an empty map instead of `NotFound`. -/
theorem setHash_empty_fields_cex :
    (applyOp mcEmpty (MemOp.setHash "h" [] (-1)) 0).hashMaps "h" =
      some [] ∧
    (memGetHash (applyOp mcEmpty (MemOp.setHash "h" [] (-1)) 0) "h" 0).1 =
      .ok [] ∧
    ¬HashNonempty (applyOp mcEmpty (MemOp.setHash "h" [] (-1)) 0) :=
  ⟨by decide, by decide, fun h => h "h" [] (by decide) rfl⟩

end Goscache
